import Mathlib

/-!
Verification of the core of `git-power-rs` (`src/main.rs`) against its
natural-language specification.

The program is embedded shallowly:

* Rust `String` buffers are modelled as `List Nat` of byte values (the code
  only ever inserts and rewrites ASCII, and `str::find` / `insert_str` /
  `replace_range` all work on byte indices).
* `str::find` is `findSub`, first index at which the pattern occurs.
* `CommitBuffer::new` is split into `locateNonce` (the nonce-placement match)
  followed by `finishCommit` (line-end lookup, 32-byte normalisation and the
  `commit <len>\0` header), combined in `commitNew`.  Rust `?` failures are
  `none`.
* The streaming SHA-1 object of the `sha1` crate is modelled by its interface
  contract: a state is the list of absorbed bytes (`sha1Update` appends) and
  `finalize` is an arbitrary digest function applied to the absorbed stream.
  Theorems about digests quantify over that digest function.
* The per-worker search loop of `run_pow` is `workerRun`: it returns the list
  of channel messages the worker sends together with the number of hash
  iterations it performed.  The shared stop flag is modelled as the boolean
  schedule `stop : Nat → Bool` giving the value the flag poll reads at each
  loop iteration, and the shared `max_zeros` atomic is threaded as the value
  this worker observes.  The coordinator receive loop of `run_pow` is
  `coordinatorRun` over the sequence of received messages; an exhausted
  message sequence is `PowOutcome.hang` because the coordinator itself still
  owns the original `Sender`, so `rx.recv()` can never observe disconnection.
-/

set_option maxRecDepth 100000

/-- Byte values of an ASCII Rust string literal. -/
def strBytes (s : String) : List Nat := s.toList.map Char.toNat

/-- `listStartsWith s pat` holds when `pat` occurs at the head of `s`. -/
def listStartsWith : List Nat → List Nat → Bool
  | _, [] => true
  | [], _ :: _ => false
  | a :: s, b :: p => a == b && listStartsWith s p

/-- Model of Rust `str::find`: byte index of the first occurrence of `pat`
in `s`, or `none`. -/
def findSub : List Nat → List Nat → Option Nat
  | [], pat => if listStartsWith [] pat then some 0 else none
  | a :: t, pat =>
    if listStartsWith (a :: t) pat then some 0
    else (findSub t pat).map (· + 1)

/-- Model of Rust `String::insert_str` at byte index `i`. -/
def insertStr (s : List Nat) (i : Nat) (t : List Nat) : List Nat :=
  s.take i ++ t ++ s.drop i

/-- Model of Rust `String::replace_range` over `i..j`. -/
def replaceRange (s : List Nat) (i j : Nat) (t : List Nat) : List Nat :=
  s.take i ++ t ++ s.drop j

/-- `NONCE_LENGTH` from the source. -/
def nonceLength : Nat := 32

/-- The initial nonce value `"AAAAAAAAAAAAAAAAAAAAAAAAAAAAAAAA"`. -/
def nonceInit : List Nat := List.replicate 32 65

/-- `"-----BEGIN PGP SIGNATURE-----"`. -/
def pgpMarker : List Nat := strBytes "-----BEGIN PGP SIGNATURE-----"

/-- `"-----END PGP SIGNATURE-----"`. -/
def pgpEndMarker : List Nat := strBytes "-----END PGP SIGNATURE-----"

/-- `"\n\n"`, the metadata/message separator searched by `CommitBuffer::new`. -/
def dblNewline : List Nat := strBytes "\n\n"

/-- The `CommitBuffer` struct of the source: the full byte buffer (with the
prepended `commit <len>\0` header), the header length, and the nonce window
offsets into `buf`. -/
structure CommitBuffer where
  buf : List Nat
  header_len : Nat
  nonce_start : Nat
  nonce_end : Nat
deriving DecidableEq, Repr

/-- The nonce-placement `match` at the top of `CommitBuffer::new`: returns the
buffer (with a `"\nNonce: "` / `"\nnonce "` field inserted when absent) and
the byte offset `start` of the nonce value, or `none` on the
`"Malformed PGP header"` / `"Malformed commit"` errors. -/
def locateNonce (b : List Nat) : Option (List Nat × Nat) :=
  match findSub b pgpMarker with
  | some pgpIdx =>
    match findSub (b.drop pgpIdx) (strBytes "Nonce") with
    | some idx => some (b, pgpIdx + idx + 7)
    | none =>
      match findSub (b.drop pgpIdx) (strBytes "\n ") with
      | some k => some (insertStr b (pgpIdx + k) (strBytes "\nNonce: "), pgpIdx + k + 8)
      | none => none
  | none =>
    match findSub b dblNewline with
    | some headerEnd =>
      match findSub b (strBytes "nonce") with
      | some idx => some (b, idx + 6)
      | none => some (insertStr b headerEnd (strBytes "\nnonce "), headerEnd + 7)
    | none => none

/-- The `commit <decimal length>\0` header prepended before hashing. -/
def commitHeader (bs : List Nat) : List Nat :=
  strBytes "commit " ++ strBytes (toString bs.length) ++ [0]

/-- The tail of `CommitBuffer::new` after nonce placement: find the end of the
nonce line, normalise the nonce to exactly 32 bytes with `replace_range` when
needed, prepend the `commit <len>\0` header, and record the window offsets. -/
def finishCommit : List Nat × Nat → Option CommitBuffer
  | (buf1, start) =>
    match findSub (buf1.drop start) (strBytes "\n") with
    | none => none
    | some d =>
      let buf2 := if d = 32 then buf1 else replaceRange buf1 start (start + d) nonceInit
      let hdr := commitHeader buf2
      some ⟨hdr ++ buf2, hdr.length, start + hdr.length, start + 32 + hdr.length⟩

/-- `CommitBuffer::new` (UTF-8 validation is not modelled; all claims concern
valid text, and the byte-level operations are unchanged by it). -/
def commitNew (b : List Nat) : Option CommitBuffer :=
  (locateNonce b).bind finishCommit

/-- `CommitBuffer::data`: the logical commit record, without the prepended
object header. -/
def dataOf (c : CommitBuffer) : List Nat := c.buf.drop c.header_len

/-- The 32 nonce bytes written by `CommitBuffer::write_nonce`:
`nonce_bytes[31 - i] = b'A' + ((val >> (4 * i)) & 0xF)`, i.e. position `j`
holds `65 + ((val >>> (4 * (31 - j))) % 16)` — most-significant nibble first. -/
def nonceBytes (val : Nat) : List Nat :=
  (List.range 32).map (fun j => 65 + (val >>> (4 * (31 - j))) % 16)

/-- `CommitBuffer::write_nonce`: overwrite `buf[nonce_start..nonce_end]` with
the encoded nonce. -/
def writeNonce (c : CommitBuffer) (val : Nat) : CommitBuffer :=
  { c with buf := c.buf.take c.nonce_start ++ nonceBytes val ++ c.buf.drop c.nonce_end }

/-- Well-formedness established by `CommitBuffer::new`: the nonce window is
exactly 32 bytes and lies inside the buffer. -/
def wfCB (c : CommitBuffer) : Prop :=
  c.nonce_end = c.nonce_start + 32 ∧ c.nonce_end ≤ c.buf.length

/-- `u8::leading_zeros` for a byte value. -/
def clz8 (b : Nat) : Nat :=
  if 128 ≤ b then 0
  else if 64 ≤ b then 1
  else if 32 ≤ b then 2
  else if 16 ≤ b then 3
  else if 8 ≤ b then 4
  else if 4 ≤ b then 5
  else if 2 ≤ b then 6
  else if 1 ≤ b then 7
  else 8

/-- `num_leading_zero_bits`: add each byte's leading zeros, stopping after the
first nonzero byte. -/
def numLeadingZeroBits : List Nat → Nat
  | [] => 0
  | b :: rest => clz8 b + (if b = 0 then numLeadingZeroBits rest else 0)

/-- Bit `i` of a digest, scanning from the most significant bit of byte 0. -/
def bitAt (d : List Nat) (i : Nat) : Bool :=
  Nat.testBit (d.getD (i / 8) 0) (7 - i % 8)

/-- `u128::MAX`. -/
def U128MAX : Nat := 2 ^ 128 - 1

/-- `chunk_size = u128::MAX / num_threads` from `run_pow`. -/
def chunkSize (w : Nat) : Nat := U128MAX / w

/-- Membership in worker `i`'s nonce range `i*chunk_size..(i+1)*chunk_size`. -/
def inWorkerRange (w i n : Nat) : Prop :=
  i * chunkSize w ≤ n ∧ n < (i + 1) * chunkSize w

/-- Rust `u128` division: panics (`none`) on a zero divisor. -/
def rustDivU128 (a b : Nat) : Option Nat :=
  if b = 0 then none else some (a / b)

/-- The `chunk_size` computation of `run_pow`, with the divide-by-zero panic
made explicit. -/
def chunkSizeChecked (w : Nat) : Option Nat := rustDivU128 U128MAX w

/-- `config.threads.unwrap_or(num_cpus::get())`. -/
def effectiveThreads (threadsOpt : Option Nat) (cpus : Nat) : Nat :=
  threadsOpt.getD cpus

/-- The streaming SHA-1 state: the list of absorbed bytes.  `Sha1::new()` is
the empty state. -/
def sha1Init : List Nat := []

/-- `Digest::update`: absorb further bytes into the streaming state. -/
def sha1Update (st bytes : List Nat) : List Nat := st ++ bytes

/-- The `PowMessage` enum of the source. -/
inductive PowMessage where
  | update : List Nat → Nat → PowMessage
  | done : CommitBuffer → List Nat → PowMessage
deriving DecidableEq, Repr

/-- Outcome of the coordinator loop of `run_pow`: either the winning
`(CommitBuffer, digest)` pair, or blocking forever on `rx.recv()`. -/
inductive PowOutcome where
  | success : CommitBuffer → List Nat → PowOutcome
  | hang : PowOutcome
deriving DecidableEq, Repr

/-- One worker's search loop from `run_pow`, over the iterations of
`for nonce in i*chunk_size..(i+1)*chunk_size`.  Arguments: the digest
function standing for SHA-1 finalisation, the stop-flag schedule (value read
by the poll of iteration `k`), the target bit count, the cached prefix hash
state `hasher.update(&commit.buf[..commit.nonce_start])` computed before the
loop, then the commit buffer (mutated in place), the next nonce, remaining
fuel (range length), the iteration counter `k`, and the observed `max_zeros`
value.  Returns the messages sent on the channel and the number of hash
iterations performed. -/
def workerRun (hashFn : List Nat → List Nat) (stop : Nat → Bool) (target : Nat)
    (cachedPre : List Nat) :
    CommitBuffer → Nat → Nat → Nat → Nat → List PowMessage × Nat
  | _, _, 0, _, _ => ([], 0)
  | c, nonce, fuel + 1, k, maxZ =>
    if stop k then ([], 0)
    else
      let c' := writeNonce c nonce
      let h := hashFn (sha1Update cachedPre (c'.buf.drop c'.nonce_start))
      let z := numLeadingZeroBits h
      let upd : List PowMessage := if maxZ < z then [PowMessage.update h z] else []
      let maxZ' := if maxZ < z then z else maxZ
      if target ≤ z then (upd ++ [PowMessage.done c' h], 1)
      else
        let rest := workerRun hashFn stop target cachedPre c' (nonce + 1) fuel (k + 1) maxZ'
        (upd ++ rest.1, rest.2 + 1)

/-- The coordinator receive loop of `run_pow` over the sequence of received
messages: `Update` messages are printed and skipped; the first `Done` sets the
stop flag and returns.  When the sequence is exhausted without a `Done`, the
coordinator blocks forever in `rx.recv()` (its own clone of the sender is
still live, so the channel never disconnects): outcome `hang`, with the stop
flag still `false`. -/
def coordinatorRun : List PowMessage → Bool × PowOutcome
  | [] => (false, PowOutcome.hang)
  | PowMessage.update _ _ :: rest => coordinatorRun rest
  | PowMessage.done c h :: _ => (true, PowOutcome.success c h)

example : findSub (strBytes "abcab") (strBytes "ab") = some 0 := by decide
example : findSub (strBytes "xabcab") (strBytes "ab") = some 1 := by decide
example : findSub (strBytes "xyz") (strBytes "ab") = none := by decide
example : numLeadingZeroBits [0, 0, 16] = 19 := by decide
example : numLeadingZeroBits [0, 0, 0] = 24 := by decide

/-! ## C10: zero worker count divides by zero -/

/-- **C10**: with `--threads 0` the effective worker count is `0` and the
`chunk_size` computation `u128::MAX / num_threads` is a division by zero, so
`run_pow` panics (`none`); for every worker count of at least `1` the division
is well defined and yields `⌊u128::MAX / w⌋`. -/
theorem c10_zero_threads_panics :
    (∀ cpus, effectiveThreads (some 0) cpus = 0) ∧
    chunkSizeChecked 0 = none ∧
    ∀ w, 1 ≤ w → chunkSizeChecked w = some (U128MAX / w) := by
  refine ⟨fun _ => rfl, rfl, fun w hw => ?_⟩
  simp [chunkSizeChecked, rustDivU128, Nat.one_le_iff_ne_zero.mp hw]

/-- Witness for **C10** at worker count `4`. -/
theorem c10_zero_threads_panics_witness :
    chunkSizeChecked 4 = some (U128MAX / 4) :=
  c10_zero_threads_panics.2.2 4 (by decide)

/-! ## C1: partition of the nonce domain -/

/-- **C1 counterexample**: with one worker, the nonce `2^128 - 1` lies in no
worker range, so the union of the ranges is not all of `[0, 2^128)`: the
claimed exact coverage fails. -/
theorem c1_partition_cex :
    ¬ ∃ i, i < 1 ∧ inWorkerRange 1 i (2 ^ 128 - 1) := by
  rintro ⟨i, hi, hr⟩
  have hi0 : i = 0 := by omega
  subst hi0
  simp only [inWorkerRange, chunkSize, U128MAX, Nat.div_one, one_mul, zero_mul] at hr
  omega

/-- **C1 amended**: for every worker count `W ∈ [1, 256]` the ranges
`[i*chunk_size, (i+1)*chunk_size)` with `chunk_size = ⌊(2^128-1)/W⌋` are
pairwise disjoint, and their union is exactly `[0, W*chunk_size)` — a proper
subinterval of `[0, 2^128)`, so the top `2^128 - W*chunk_size ≥ 1` nonces are
assigned to no worker. -/
theorem c1_partition_amended (W : Nat) (hW1 : 1 ≤ W) (hW2 : W ≤ 256) :
    (∀ i j n, inWorkerRange W i n → inWorkerRange W j n → i = j) ∧
    (∀ n, (∃ i, i < W ∧ inWorkerRange W i n) ↔ n < W * chunkSize W) ∧
    W * chunkSize W < 2 ^ 128 := by
  have hc : 0 < chunkSize W := by
    have h256 : (256 : Nat) ≤ U128MAX := by
      simp only [U128MAX]
      norm_num
    exact Nat.one_le_div_iff (by omega) |>.mpr (le_trans hW2 h256)
  refine ⟨?_, ?_, ?_⟩
  · intro i j n hi hj
    obtain ⟨hi1, hi2⟩ := hi
    obtain ⟨hj1, hj2⟩ := hj
    have e1 : n / chunkSize W = i := Nat.div_eq_of_lt_le hi1 hi2
    have e2 : n / chunkSize W = j := Nat.div_eq_of_lt_le hj1 hj2
    omega
  · intro n
    constructor
    · rintro ⟨i, hiW, hi1, hi2⟩
      calc n < (i + 1) * chunkSize W := hi2
        _ ≤ W * chunkSize W := Nat.mul_le_mul_right _ (by omega)
    · intro hn
      refine ⟨n / chunkSize W, ?_, ?_, ?_⟩
      · exact (Nat.div_lt_iff_lt_mul hc).mpr hn
      · exact Nat.div_mul_le_self n _
      · have h1 : chunkSize W * (n / chunkSize W) + n % chunkSize W = n :=
          Nat.div_add_mod n _
        have h2 : n % chunkSize W < chunkSize W := Nat.mod_lt n hc
        calc n = chunkSize W * (n / chunkSize W) + n % chunkSize W := h1.symm
          _ < chunkSize W * (n / chunkSize W) + chunkSize W := by omega
          _ = (n / chunkSize W + 1) * chunkSize W := by ring
  · have h1 : chunkSize W * W ≤ U128MAX := Nat.div_mul_le_self U128MAX W
    have h2 : U128MAX < 2 ^ 128 := by
      simp only [U128MAX]
      have : 0 < 2 ^ 128 := Nat.pos_pow_of_pos _ (by norm_num)
      omega
    calc W * chunkSize W = chunkSize W * W := Nat.mul_comm _ _
      _ ≤ U128MAX := h1
      _ < 2 ^ 128 := h2

/-- Witness for **C1 amended** at `W = 2`, `n = 0`. -/
theorem c1_partition_amended_witness :
    ((∃ i, i < 2 ∧ inWorkerRange 2 i 0) ↔ 0 < 2 * chunkSize 2) ∧
    2 * chunkSize 2 < 2 ^ 128 := by
  have h := c1_partition_amended 2 (by decide) (by decide)
  exact ⟨h.2.1 0, h.2.2⟩

/-! ## C5: the leading-zero-bit scorer -/

set_option maxRecDepth 4000 in
/-- One-byte specification of `u8::leading_zeros`, checked by evaluation over
all byte values. -/
lemma clz8_spec : ∀ x, x < 256 →
    clz8 x ≤ 8 ∧
    (∀ r < clz8 x, Nat.testBit x (7 - r) = false) ∧
    (x ≠ 0 → clz8 x < 8 ∧ Nat.testBit x (7 - clz8 x) = true) ∧
    (x = 0 → clz8 x = 8) := by decide

lemma bitAt_cons_lt (b : Nat) (rest : List Nat) (j : Nat) (hj : j < 8) :
    bitAt (b :: rest) j = Nat.testBit b (7 - j) := by
  unfold bitAt
  have h1 : j / 8 = 0 := Nat.div_eq_of_lt hj
  have h2 : j % 8 = j := Nat.mod_eq_of_lt hj
  rw [h1, h2]
  rfl

lemma bitAt_cons_ge (b : Nat) (rest : List Nat) (j : Nat) (hj : 8 ≤ j) :
    bitAt (b :: rest) j = bitAt rest (j - 8) := by
  unfold bitAt
  have h1 : j / 8 = (j - 8) / 8 + 1 := by omega
  have h2 : j % 8 = (j - 8) % 8 := by omega
  rw [h1, h2]
  rfl

/-- Inductive specification of `num_leading_zero_bits` over a byte list. -/
lemma nlzb_spec (d : List Nat) (hb : ∀ x ∈ d, x < 256) :
    numLeadingZeroBits d ≤ 8 * d.length ∧
    (∀ j < numLeadingZeroBits d, bitAt d j = false) ∧
    (numLeadingZeroBits d < 8 * d.length → bitAt d (numLeadingZeroBits d) = true) ∧
    (numLeadingZeroBits d = 8 * d.length ↔ ∀ x ∈ d, x = 0) := by
  induction d with
  | nil => simp [numLeadingZeroBits]
  | cons b rest ih =>
    have hb256 : b < 256 := hb b (by simp)
    have hrest : ∀ x ∈ rest, x < 256 := fun x hx => hb x (by simp [hx])
    obtain ⟨ih1, ih2, ih3, ih4⟩ := ih hrest
    obtain ⟨cs0, cs1, cs2, cs3⟩ := clz8_spec b hb256
    by_cases hbz : b = 0
    · subst hbz
      have hval : numLeadingZeroBits (0 :: rest) = 8 + numLeadingZeroBits rest := by
        simp [numLeadingZeroBits, cs3 rfl]
      refine ⟨?_, ?_, ?_, ?_⟩
      · rw [hval]
        simp only [List.length_cons]
        omega
      · intro j hj
        rw [hval] at hj
        by_cases hj8 : j < 8
        · rw [bitAt_cons_lt 0 rest j hj8]
          exact Nat.zero_testBit _
        · rw [bitAt_cons_ge 0 rest j (by omega)]
          exact ih2 (j - 8) (by omega)
      · intro hlt
        rw [hval] at hlt ⊢
        simp only [List.length_cons] at hlt
        rw [bitAt_cons_ge 0 rest _ (by omega)]
        have : 8 + numLeadingZeroBits rest - 8 = numLeadingZeroBits rest := by omega
        rw [this]
        exact ih3 (by omega)
      · rw [hval]
        simp only [List.length_cons, List.mem_cons]
        constructor
        · intro h x hx
          rcases hx with rfl | hx
          · rfl
          · exact ih4.mp (by omega) x hx
        · intro h
          have := ih4.mpr (fun x hx => h x (Or.inr hx))
          omega
    · have hval : numLeadingZeroBits (b :: rest) = clz8 b := by
        simp [numLeadingZeroBits, hbz]
      obtain ⟨hlt8, hbit⟩ := cs2 hbz
      refine ⟨?_, ?_, ?_, ?_⟩
      · rw [hval]
        simp only [List.length_cons]
        omega
      · intro j hj
        rw [hval] at hj
        rw [bitAt_cons_lt b rest j (by omega)]
        exact cs1 j hj
      · intro _
        rw [hval, bitAt_cons_lt b rest _ (by omega)]
        exact hbit
      · rw [hval]
        simp only [List.length_cons, List.mem_cons]
        constructor
        · intro h
          omega
        · intro h
          exact absurd (h b (Or.inl rfl)) hbz

/-- **C5**: for a 20-byte digest `d`, `num_leading_zero_bits d` is a value
`k ≤ 160` such that the first `k` bits of `d` (from the most significant bit
of byte 0) are zero; when `k < 160` bit `k` is one, and `k = 160` exactly when
every byte of `d` is zero. -/
theorem c5_leading_zero_spec (d : List Nat) (hlen : d.length = 20)
    (hb : ∀ x ∈ d, x < 256) :
    numLeadingZeroBits d ≤ 160 ∧
    (∀ j < numLeadingZeroBits d, bitAt d j = false) ∧
    (numLeadingZeroBits d < 160 → bitAt d (numLeadingZeroBits d) = true) ∧
    (numLeadingZeroBits d = 160 ↔ ∀ x ∈ d, x = 0) := by
  have h := nlzb_spec d hb
  rw [hlen] at h
  norm_num at h
  exact h

/-- Witness for **C5** at the digest `00…0001`. -/
theorem c5_leading_zero_spec_witness :
    numLeadingZeroBits (List.replicate 19 0 ++ [1]) ≤ 160 ∧
    (∀ j < numLeadingZeroBits (List.replicate 19 0 ++ [1]),
      bitAt (List.replicate 19 0 ++ [1]) j = false) ∧
    (numLeadingZeroBits (List.replicate 19 0 ++ [1]) < 160 →
      bitAt (List.replicate 19 0 ++ [1]) (numLeadingZeroBits (List.replicate 19 0 ++ [1])) = true) ∧
    (numLeadingZeroBits (List.replicate 19 0 ++ [1]) = 160 ↔
      ∀ x ∈ List.replicate 19 0 ++ [1], x = 0) :=
  c5_leading_zero_spec _ (by decide) (by decide)

/-! ## C4: the nonce encoding -/

lemma testBit_shiftRight_mod16 (v s r : Nat) (hr : r < 4) :
    Nat.testBit ((v >>> s) % 16) r = Nat.testBit v (s + r) := by
  have h16 : (16 : Nat) = 2 ^ 4 := by norm_num
  rw [h16, Nat.testBit_mod_two_pow, Nat.testBit_shiftRight]
  simp [hr]

lemma nonceBytes_getD (v j : Nat) (hj : j < 32) :
    (nonceBytes v).getD j 0 = 65 + (v >>> (4 * (31 - j))) % 16 := by
  unfold nonceBytes
  have hlen : j < ((List.range 32).map
      (fun j => 65 + (v >>> (4 * (31 - j))) % 16)).length := by
    simpa using hj
  rw [List.getD_eq_getElem _ _ hlen, List.getElem_map, List.getElem_range]

/-- **C4**: `write_nonce`'s encoding is total and injective on `[0, 2^128)`,
every output byte lies in the 16-symbol alphabet `b'A'..b'P'` (`65..80`), the
output is exactly 32 bytes, and the first byte is determined by the value's
most-significant nibble `val / 2^124`. -/
theorem c4_nonce_encoding (a b : Nat) (ha : a < 2 ^ 128) (hb : b < 2 ^ 128) :
    ((nonceBytes a = nonceBytes b) ↔ a = b) ∧
    (nonceBytes a).length = 32 ∧
    (∀ x ∈ nonceBytes a, 65 ≤ x ∧ x ≤ 80) ∧
    (nonceBytes a).getD 0 0 = 65 + a / 2 ^ 124 := by
  refine ⟨⟨?_, fun h => h ▸ rfl⟩, by simp [nonceBytes], ?_, ?_⟩
  · intro h
    have hnib : ∀ j < 32, (a >>> (4 * (31 - j))) % 16 = (b >>> (4 * (31 - j))) % 16 := by
      intro j hj
      have this : (nonceBytes a).getD j 0 = (nonceBytes b).getD j 0 := by rw [h]
      rw [nonceBytes_getD a j hj, nonceBytes_getD b j hj] at this
      omega
    apply Nat.eq_of_testBit_eq
    intro i
    by_cases hi : i < 128
    · have hj : 31 - (31 - i / 4) = i / 4 := by omega
      have hn := hnib (31 - i / 4) (by omega)
      rw [hj] at hn
      have hr : i % 4 < 4 := Nat.mod_lt _ (by norm_num)
      have hsum : 4 * (i / 4) + i % 4 = i := by omega
      have ha' := testBit_shiftRight_mod16 a (4 * (i / 4)) (i % 4) hr
      have hb' := testBit_shiftRight_mod16 b (4 * (i / 4)) (i % 4) hr
      rw [hsum] at ha' hb'
      rw [← ha', ← hb', hn]
    · have hpa : a < 2 ^ i := lt_of_lt_of_le ha (Nat.pow_le_pow_right (by norm_num) (by omega))
      have hpb : b < 2 ^ i := lt_of_lt_of_le hb (Nat.pow_le_pow_right (by norm_num) (by omega))
      rw [Nat.testBit_eq_false_of_lt hpa, Nat.testBit_eq_false_of_lt hpb]
  · intro x hx
    obtain ⟨j, _, rfl⟩ := List.mem_map.mp hx
    have : (a >>> (4 * (31 - j))) % 16 < 16 := Nat.mod_lt _ (by norm_num)
    omega
  · rw [nonceBytes_getD a 0 (by norm_num)]
    have hs : a >>> (4 * (31 - 0)) = a / 2 ^ 124 := by
      rw [Nat.shiftRight_eq_div_pow]
    rw [hs]
    have hlt : a / 2 ^ 124 < 16 := by
      rw [Nat.div_lt_iff_lt_mul (by positivity)]
      calc a < 2 ^ 128 := ha
        _ = 16 * 2 ^ 124 := by norm_num
    rw [Nat.mod_eq_of_lt hlt]

/-- Witness for **C4** at the values `3` and `5`. -/
theorem c4_nonce_encoding_witness :
    ((nonceBytes 3 = nonceBytes 5) ↔ (3 : Nat) = 5) ∧
    (nonceBytes 3).length = 32 ∧
    (∀ x ∈ nonceBytes 3, 65 ≤ x ∧ x ≤ 80) ∧
    (nonceBytes 3).getD 0 0 = 65 + 3 / 2 ^ 124 :=
  c4_nonce_encoding 3 5 (by norm_num) (by norm_num)

/-! ## Substring-search toolkit -/

lemma lsw_length {s pat : List Nat} (h : listStartsWith s pat = true) :
    pat.length ≤ s.length := by
  induction pat generalizing s with
  | nil => simp
  | cons b p ih =>
    cases s with
    | nil => simp [listStartsWith] at h
    | cons a t =>
      simp only [listStartsWith, Bool.and_eq_true, beq_iff_eq] at h
      have := ih h.2
      simp only [List.length_cons]
      omega

lemma lsw_getD {s pat : List Nat} (h : listStartsWith s pat = true) :
    ∀ k < pat.length, s.getD k 0 = pat.getD k 0 := by
  induction pat generalizing s with
  | nil => intro k hk; simp at hk
  | cons b p ih =>
    cases s with
    | nil => simp [listStartsWith] at h
    | cons a t =>
      simp only [listStartsWith, Bool.and_eq_true, beq_iff_eq] at h
      intro k hk
      cases k with
      | zero => simpa using h.1
      | succ k' =>
        simp only [List.getD_cons_succ]
        exact ih h.2 k' (by simpa using hk)

lemma lsw_intro {s pat : List Nat} (hlen : pat.length ≤ s.length)
    (hch : ∀ k < pat.length, s.getD k 0 = pat.getD k 0) :
    listStartsWith s pat = true := by
  induction pat generalizing s with
  | nil => cases s <;> rfl
  | cons b p ih =>
    cases s with
    | nil => simp at hlen
    | cons a t =>
      simp only [listStartsWith, Bool.and_eq_true, beq_iff_eq]
      refine ⟨by simpa using hch 0 (by simp), ?_⟩
      apply ih
      · simpa using hlen
      · intro k hk
        simpa using hch (k + 1) (by simpa using hk)

lemma findSub_some {s pat : List Nat} {i : Nat} (h : findSub s pat = some i) :
    listStartsWith (s.drop i) pat = true ∧
    ∀ j < i, listStartsWith (s.drop j) pat = false := by
  induction s generalizing i with
  | nil =>
    by_cases hl : listStartsWith [] pat = true
    · simp only [findSub, hl, if_true, Option.some.injEq] at h
      subst h
      exact ⟨by simpa using hl, by omega⟩
    · simp [findSub, hl] at h
  | cons a t ih =>
    by_cases hl : listStartsWith (a :: t) pat = true
    · simp only [findSub, hl, if_true, Option.some.injEq] at h
      subst h
      exact ⟨by simpa using hl, by omega⟩
    · have hstep : findSub (a :: t) pat = (findSub t pat).map (· + 1) := by
        simp [findSub, hl]
      rw [hstep] at h
      cases hfind : findSub t pat with
      | none =>
        rw [hfind] at h
        simp at h
      | some i' =>
      rw [hfind, Option.map_some'] at h
      have hii : i = i' + 1 := by simpa using h.symm
      subst hii
      obtain ⟨h1, h2⟩ := ih hfind
      refine ⟨by simpa [List.drop_succ_cons] using h1, ?_⟩
      intro j hj
      cases j with
      | zero =>
        simpa using Bool.eq_false_iff.mpr hl
      | succ j' =>
        simpa [List.drop_succ_cons] using h2 j' (by omega)

lemma findSub_none {s pat : List Nat} (h : findSub s pat = none) :
    ∀ j, listStartsWith (s.drop j) pat = false := by
  induction s with
  | nil =>
    intro j
    by_cases hl : listStartsWith [] pat = true
    · simp [findSub, hl] at h
    · simpa [List.drop_nil] using Bool.eq_false_iff.mpr hl
  | cons a t ih =>
    intro j
    by_cases hl : listStartsWith (a :: t) pat = true
    · simp [findSub, hl] at h
    · simp only [findSub, hl, if_false] at h
      have ht : findSub t pat = none := by
        cases hfind : findSub t pat with
        | none => rfl
        | some k => simp [hfind] at h
      cases j with
      | zero => simpa using Bool.eq_false_iff.mpr hl
      | succ j' => simpa [List.drop_succ_cons] using ih ht j'

lemma findSub_intro {s pat : List Nat} {i : Nat}
    (h1 : listStartsWith (s.drop i) pat = true)
    (h2 : ∀ j < i, listStartsWith (s.drop j) pat = false) :
    findSub s pat = some i := by
  induction s generalizing i with
  | nil =>
    cases i with
    | zero => simpa [findSub] using h1
    | succ i' =>
      have h0 := h2 0 (Nat.succ_pos _)
      rw [List.drop_nil] at h1
      rw [List.drop_zero] at h0
      rw [h0] at h1
      exact absurd h1 (by simp)
  | cons a t ih =>
    cases i with
    | zero =>
      rw [List.drop_zero] at h1
      simp [findSub, h1]
    | succ i' =>
      have h0 := h2 0 (Nat.succ_pos _)
      rw [List.drop_zero] at h0
      have hrec : findSub t pat = some i' := by
        apply ih
        · simpa [List.drop_succ_cons] using h1
        · intro j hj
          simpa [List.drop_succ_cons] using h2 (j + 1) (by omega)
      simp [findSub, h0, hrec]

lemma getD_drop (s : List Nat) (j k : Nat) :
    (s.drop j).getD k 0 = s.getD (j + k) 0 := by
  induction s generalizing j with
  | nil => simp
  | cons a t ih =>
    cases j with
    | zero => simp
    | succ j' =>
      rw [List.drop_succ_cons]
      rw [ih j']
      simp [Nat.succ_add]

/-! ## Well-formedness of parsed commit buffers -/

lemma findSub_some_le {s pat : List Nat} {i : Nat} (h : findSub s pat = some i)
    (hp : pat ≠ []) : i + pat.length ≤ s.length := by
  have h1 := (findSub_some h).1
  have h2 := lsw_length h1
  have h3 : (s.drop i).length = s.length - i := List.length_drop _ _
  have h4 : ((s.drop i).drop 0).length = (s.drop i).length := by simp
  have h5 : 1 ≤ pat.length := List.length_pos.mpr hp
  rw [List.length_drop] at h2
  omega

lemma finishCommit_eq32 (buf1 : List Nat) (start : Nat)
    (hfind : findSub (buf1.drop start) (strBytes "\n") = some 32) :
    finishCommit (buf1, start) =
      some ⟨commitHeader buf1 ++ buf1, (commitHeader buf1).length,
            start + (commitHeader buf1).length,
            start + 32 + (commitHeader buf1).length⟩ := by
  simp only [finishCommit]
  rw [hfind]
  simp

lemma finishCommit_eqRepl (buf1 : List Nat) (start d : Nat) (hd : d ≠ 32)
    (hfind : findSub (buf1.drop start) (strBytes "\n") = some d) :
    finishCommit (buf1, start) =
      some ⟨commitHeader (replaceRange buf1 start (start + d) nonceInit) ++
              replaceRange buf1 start (start + d) nonceInit,
            (commitHeader (replaceRange buf1 start (start + d) nonceInit)).length,
            start + (commitHeader (replaceRange buf1 start (start + d) nonceInit)).length,
            start + 32 +
              (commitHeader (replaceRange buf1 start (start + d) nonceInit)).length⟩ := by
  simp only [finishCommit]
  rw [hfind]
  simp [hd]

lemma finishCommit_wf {buf1 : List Nat} {start : Nat} {c : CommitBuffer}
    (h : finishCommit (buf1, start) = some c) :
    wfCB c ∧ c.nonce_start = start + c.header_len := by
  cases hfind : findSub (buf1.drop start) (strBytes "\n") with
  | none =>
    simp only [finishCommit] at h
    rw [hfind] at h
    exact absurd h (by simp)
  | some d =>
    have hbound : d + 1 ≤ (buf1.drop start).length := by
      have := findSub_some_le hfind (by decide)
      simpa [strBytes] using this
    have hsd : start + d + 1 ≤ buf1.length := by
      have := List.length_drop start buf1
      omega
    by_cases hd32 : d = 32
    · subst hd32
      rw [finishCommit_eq32 buf1 start hfind] at h
      simp only [Option.some.injEq] at h
      subst h
      refine ⟨⟨?_, ?_⟩, rfl⟩
      · show start + 32 + (commitHeader buf1).length =
          start + (commitHeader buf1).length + 32
        omega
      · show start + 32 + (commitHeader buf1).length ≤ (commitHeader buf1 ++ buf1).length
        rw [List.length_append]
        omega
    · rw [finishCommit_eqRepl buf1 start d hd32 hfind] at h
      simp only [Option.some.injEq] at h
      subst h
      have hlb2 : (replaceRange buf1 start (start + d) nonceInit).length
          = start + 32 + (buf1.length - (start + d)) := by
        simp only [replaceRange, List.length_append, List.length_take,
          List.length_drop, nonceInit, List.length_replicate]
        omega
      refine ⟨⟨?_, ?_⟩, rfl⟩
      · show start + 32 +
          (commitHeader (replaceRange buf1 start (start + d) nonceInit)).length =
          start + (commitHeader (replaceRange buf1 start (start + d) nonceInit)).length + 32
        omega
      · show start + 32 +
          (commitHeader (replaceRange buf1 start (start + d) nonceInit)).length ≤
          (commitHeader (replaceRange buf1 start (start + d) nonceInit) ++
            replaceRange buf1 start (start + d) nonceInit).length
        rw [List.length_append, hlb2]
        omega

lemma commitNew_wf {b : List Nat} {c : CommitBuffer} (h : commitNew b = some c) :
    wfCB c := by
  obtain ⟨p, _, hf⟩ := Option.bind_eq_some.mp h
  obtain ⟨buf1, start⟩ := p
  exact (finishCommit_wf hf).1

/-! ## Writing the nonce preserves everything outside the window -/

lemma nonceBytes_length (v : Nat) : (nonceBytes v).length = 32 := by
  simp [nonceBytes]

lemma writeNonce_take (c : CommitBuffer) (v : Nat) (hwf : wfCB c) :
    (writeNonce c v).buf.take c.nonce_start = c.buf.take c.nonce_start := by
  obtain ⟨h1, h2⟩ := hwf
  have hlen : (c.buf.take c.nonce_start).length = c.nonce_start := by
    rw [List.length_take]
    omega
  show (c.buf.take c.nonce_start ++ nonceBytes v ++ c.buf.drop c.nonce_end).take
      c.nonce_start = c.buf.take c.nonce_start
  rw [List.append_assoc, List.take_left' hlen]

lemma writeNonce_drop (c : CommitBuffer) (v : Nat) (hwf : wfCB c) :
    (writeNonce c v).buf.drop c.nonce_start = nonceBytes v ++ c.buf.drop c.nonce_end := by
  obtain ⟨h1, h2⟩ := hwf
  have hlen : (c.buf.take c.nonce_start).length = c.nonce_start := by
    rw [List.length_take]
    omega
  show (c.buf.take c.nonce_start ++ nonceBytes v ++ c.buf.drop c.nonce_end).drop
      c.nonce_start = nonceBytes v ++ c.buf.drop c.nonce_end
  rw [List.append_assoc, List.drop_left' hlen]

lemma writeNonce_wf (c : CommitBuffer) (v : Nat) (hwf : wfCB c) :
    wfCB (writeNonce c v) := by
  obtain ⟨h1, h2⟩ := hwf
  refine ⟨h1, ?_⟩
  show c.nonce_end ≤ (c.buf.take c.nonce_start ++ nonceBytes v ++ c.buf.drop c.nonce_end).length
  simp only [List.length_append, List.length_take, nonceBytes_length, List.length_drop]
  omega

/-! ## C3: incremental-hash equivalence -/

/-- **C3**: for every parsed commit buffer and every nonce value, resuming the
hash state pre-computed over the unchanging bytes before the nonce window
(`hasher.update(&commit.buf[..commit.nonce_start])`, which includes the
prepended `commit <len>\0` header) and folding in only the suffix from the
window onward yields the same digest as hashing the whole headed buffer in
one pass — for any digest (finalisation) function `H` applied to the absorbed
byte stream. -/
theorem c3_incremental_hash (H : List Nat → List Nat) (b : List Nat)
    (c : CommitBuffer) (hc : commitNew b = some c) (v : Nat) :
    H (sha1Update (sha1Update sha1Init (c.buf.take c.nonce_start))
        ((writeNonce c v).buf.drop (writeNonce c v).nonce_start)) =
    H (sha1Update sha1Init ((writeNonce c v).buf)) := by
  have hwf : wfCB c := commitNew_wf hc
  have hns : (writeNonce c v).nonce_start = c.nonce_start := rfl
  rw [hns]
  congr 1
  simp only [sha1Update, sha1Init, List.nil_append]
  conv_rhs => rw [← List.take_append_drop c.nonce_start (writeNonce c v).buf]
  rw [writeNonce_take c v hwf]

/-- Example input for witnesses: the minimal unsigned commit `"t\n\nm\n"`. -/
def exBuf : List Nat := strBytes "t\n\nm\n"

/-- The parse of `exBuf`: nonce trailer inserted before the separator, headed
by `commit 44\0`. -/
def exCommit : CommitBuffer :=
  ⟨(strBytes "commit " ++ strBytes "44" ++ [0]) ++
    (strBytes "t\nnonce " ++ nonceInit ++ strBytes "\n\nm\n"), 10, 18, 50⟩

/-- Witness for **C3** on `exBuf` with nonce `7`. -/
theorem c3_incremental_hash_witness :
    id (sha1Update (sha1Update sha1Init (exCommit.buf.take exCommit.nonce_start))
        ((writeNonce exCommit 7).buf.drop (writeNonce exCommit 7).nonce_start)) =
    id (sha1Update sha1Init ((writeNonce exCommit 7).buf)) :=
  c3_incremental_hash id exBuf exCommit (by decide) 7

/-! ## The worker loop and the coordinator -/

lemma nlzb_le (d : List Nat) : numLeadingZeroBits d ≤ 8 * d.length := by
  induction d with
  | nil => simp [numLeadingZeroBits]
  | cons b rest ih =>
    have hc : clz8 b ≤ 8 := by
      unfold clz8
      split_ifs <;> omega
    simp only [numLeadingZeroBits, List.length_cons]
    split_ifs <;> omega

/-- Every terminal `Done` message a worker sends carries a digest that meets
the target and equals the digest of the full buffer it reports. -/
lemma workerRun_done {hashFn : List Nat → List Nat} {stop : Nat → Bool}
    {target : Nat} {c0 : CommitBuffer} :
    ∀ (fuel : Nat) (c : CommitBuffer) (nonce k maxZ : Nat),
      wfCB c → c.nonce_start = c0.nonce_start →
      c.buf.take c.nonce_start = c0.buf.take c0.nonce_start →
      ∀ cb hb, PowMessage.done cb hb ∈
        (workerRun hashFn stop target (c0.buf.take c0.nonce_start) c nonce fuel k maxZ).1 →
      target ≤ numLeadingZeroBits hb ∧ hb = hashFn cb.buf := by
  intro fuel
  induction fuel with
  | zero =>
    intro c nonce k maxZ _ _ _ cb hb hmem
    simp [workerRun] at hmem
  | succ f ih =>
    intro c nonce k maxZ hwf hns hpre cb hb hmem
    by_cases hstop : stop k = true
    · simp [workerRun, hstop] at hmem
    · rw [Bool.not_eq_true] at hstop
      simp only [workerRun, hstop, Bool.false_eq_true, if_false] at hmem
      have hbuf : sha1Update (c0.buf.take c0.nonce_start)
          ((writeNonce c nonce).buf.drop (writeNonce c nonce).nonce_start) =
          (writeNonce c nonce).buf := by
        have h1 : (writeNonce c nonce).nonce_start = c.nonce_start := rfl
        rw [h1, sha1Update, ← hpre, ← writeNonce_take c nonce hwf]
        exact List.take_append_drop _ _
      by_cases htz : target ≤ numLeadingZeroBits (hashFn (sha1Update
          (c0.buf.take c0.nonce_start)
          ((writeNonce c nonce).buf.drop (writeNonce c nonce).nonce_start)))
      · simp only [htz, if_true] at hmem
        rw [List.mem_append] at hmem
        rcases hmem with hmem | hmem
        · split_ifs at hmem <;> simp at hmem
        · simp only [List.mem_singleton, PowMessage.done.injEq] at hmem
          obtain ⟨rfl, rfl⟩ := hmem
          rw [hbuf] at htz ⊢
          exact ⟨htz, rfl⟩
      · simp only [htz, if_false] at hmem
        rw [List.mem_append] at hmem
        rcases hmem with hmem | hmem
        · split_ifs at hmem <;> simp at hmem
        · refine ih (writeNonce c nonce) (nonce + 1) (k + 1) _
            (writeNonce_wf c nonce hwf) hns ?_ cb hb hmem
          rw [show (writeNonce c nonce).nonce_start = c.nonce_start from rfl,
            writeNonce_take c nonce hwf, hpre]

/-- The coordinator returns the payload of the first `Done` message it
receives. -/
lemma coordinatorRun_success {ms : List PowMessage} {cw : CommitBuffer}
    {hw : List Nat} (h : (coordinatorRun ms).2 = PowOutcome.success cw hw) :
    PowMessage.done cw hw ∈ ms ∧
    ∃ us rest, ms = us ++ PowMessage.done cw hw :: rest ∧
      ∀ cb hb, PowMessage.done cb hb ∉ us := by
  induction ms with
  | nil => simp [coordinatorRun] at h
  | cons m rest ih =>
    cases m with
    | update d z =>
      have h' : (coordinatorRun rest).2 = PowOutcome.success cw hw := by
        simpa [coordinatorRun] using h
      obtain ⟨hmem, us, r2, heq, hnone⟩ := ih h'
      refine ⟨by simp [hmem], PowMessage.update d z :: us, r2, by simp [heq], ?_⟩
      intro cb hb
      have := hnone cb hb
      simp only [List.mem_cons]
      rintro (hcon | hcon)
      · exact PowMessage.noConfusion hcon
      · exact this hcon
    | done c h2 =>
      simp only [coordinatorRun, PowOutcome.success.injEq] at h
      obtain ⟨rfl, rfl⟩ := h
      exact ⟨by simp, [], rest, by simp, by simp⟩

/-! ## C2: the returned result is valid and first -/

/-- **C2**: whenever the coordinator loop returns successfully with a
`(buffer, digest)` pair, the digest meets the configured target of leading
zero bits and equals the digest of the returned buffer's bytes, and the
winner is the payload of the first `Done` message received — provided every
`Done` message on the channel was produced by some run of the worker loop on
a clone of the parsed commit (arbitrary range, stop schedule and `max_zeros`
view). -/
theorem c2_first_done_valid (hashFn : List Nat → List Nat) (target : Nat)
    (c0 : CommitBuffer) (hwf0 : wfCB c0) (ms : List PowMessage)
    (hms : ∀ cb hb, PowMessage.done cb hb ∈ ms →
      ∃ stop nonce fuel k maxZ, PowMessage.done cb hb ∈
        (workerRun hashFn stop target (c0.buf.take c0.nonce_start) c0 nonce fuel k maxZ).1)
    (cw : CommitBuffer) (hw : List Nat)
    (hret : (coordinatorRun ms).2 = PowOutcome.success cw hw) :
    target ≤ numLeadingZeroBits hw ∧ hw = hashFn cw.buf ∧
    ∃ us rest, ms = us ++ PowMessage.done cw hw :: rest ∧
      ∀ cb hb, PowMessage.done cb hb ∉ us := by
  obtain ⟨hmem, hfirst⟩ := coordinatorRun_success hret
  obtain ⟨stop, nonce, fuel, k, maxZ, hin⟩ := hms cw hw hmem
  obtain ⟨hz, hh⟩ := workerRun_done fuel c0 nonce k maxZ hwf0 rfl rfl cw hw hin
  exact ⟨hz, hh, hfirst⟩

/-- An all-zero "digest" function, for witnesses. -/
def hashZero : List Nat → List Nat := fun _ => List.replicate 20 0

/-- The message list of a one-iteration worker run on `exCommit` with target
8 under `hashZero`. -/
def exMs : List PowMessage :=
  (workerRun hashZero (fun _ => false) 8 (exCommit.buf.take exCommit.nonce_start)
    exCommit 0 1 0 0).1

/-- Witness for **C2** on `exCommit` with one worker iteration. -/
theorem c2_first_done_valid_witness :
    8 ≤ numLeadingZeroBits (List.replicate 20 0) ∧
    (List.replicate 20 0 : List Nat) = hashZero ((writeNonce exCommit 0).buf) ∧
    ∃ us rest, exMs = us ++
        PowMessage.done (writeNonce exCommit 0) (List.replicate 20 0) :: rest ∧
      ∀ cb hb, PowMessage.done cb hb ∉ us := by
  refine c2_first_done_valid hashZero 8 exCommit ⟨by decide, by decide⟩ exMs ?_
    (writeNonce exCommit 0) (List.replicate 20 0) (by decide)
  intro cb hb hmem
  exact ⟨fun _ => false, 0, 1, 0, 0, hmem⟩

/-! ## C9: cooperative cancellation -/

/-- **C9**: (a) the coordinator skips `Update` messages, and on receiving the
first terminal `Done` message it sets the shared stop flag (`true` in the
returned pair) and returns its payload; (b) the worker polls the stop flag
exactly once per loop iteration, before hashing (this is the structure of
`workerRun`), so for a monotone stop schedule that reads `true` from poll
`kSet` onwards, a worker whose poll counter is at `k ≤ kSet` performs at most
`kSet - k` further hash iterations — in particular no hash at all once its
poll observes the flag, and hence at most the one hash already in flight when
the flag was set. -/
theorem c9_cancellation (hashFn : List Nat → List Nat) (stop : Nat → Bool)
    (target : Nat) (pre : List Nat) :
    (∀ (us rest : List PowMessage) (cw : CommitBuffer) (hw : List Nat),
      (∀ cb hb, PowMessage.done cb hb ∉ us) →
      coordinatorRun (us ++ PowMessage.done cw hw :: rest) =
        (true, PowOutcome.success cw hw)) ∧
    (∀ kSet, (∀ i j, i ≤ j → stop i = true → stop j = true) → stop kSet = true →
      ∀ fuel c nonce k maxZ, k ≤ kSet →
        (workerRun hashFn stop target pre c nonce fuel k maxZ).2 ≤ kSet - k) := by
  constructor
  · intro us rest cw hw hnone
    induction us with
    | nil => simp [coordinatorRun]
    | cons m us' ih =>
      cases m with
      | update d z =>
        simp only [List.cons_append, coordinatorRun]
        exact ih fun cb hb hmem => hnone cb hb (by simp [hmem])
      | done cb hb => exact absurd (by simp) (hnone cb hb)
  · intro kSet hmono hset fuel
    induction fuel with
    | zero =>
      intro c nonce k maxZ hk
      simp [workerRun]
    | succ f ih =>
      intro c nonce k maxZ hk
      by_cases hstop : stop k = true
      · simp [workerRun, hstop]
      · rw [Bool.not_eq_true] at hstop
        have hklt : k < kSet := by
          rcases Nat.lt_or_ge k kSet with h | h
          · exact h
          · exact absurd (hmono kSet k h hset) (by simp [hstop])
        simp only [workerRun, hstop, Bool.false_eq_true, if_false]
        by_cases h1 : target ≤ numLeadingZeroBits (hashFn (sha1Update pre
            ((writeNonce c nonce).buf.drop (writeNonce c nonce).nonce_start)))
        · simp only [h1, if_true]
          show (1 : Nat) ≤ kSet - k
          omega
        · simp only [h1, if_false]
          show (workerRun hashFn stop target pre (writeNonce c nonce) (nonce + 1) f (k + 1)
            (if maxZ < numLeadingZeroBits (hashFn (sha1Update pre
              ((writeNonce c nonce).buf.drop (writeNonce c nonce).nonce_start)))
             then numLeadingZeroBits (hashFn (sha1Update pre
              ((writeNonce c nonce).buf.drop (writeNonce c nonce).nonce_start)))
             else maxZ)).2 + 1 ≤ kSet - k
          have h2 := ih (writeNonce c nonce) (nonce + 1) (k + 1)
            (if maxZ < numLeadingZeroBits (hashFn (sha1Update pre
              ((writeNonce c nonce).buf.drop (writeNonce c nonce).nonce_start)))
             then numLeadingZeroBits (hashFn (sha1Update pre
              ((writeNonce c nonce).buf.drop (writeNonce c nonce).nonce_start)))
             else maxZ) (by omega)
          omega

/-- A stop schedule that reads `true` from poll 1 onwards, for the witness. -/
def exStop : Nat → Bool := fun k => decide (1 ≤ k)

/-- Witness for **C9**: a concrete coordinator run and a concrete bounded
worker run. -/
theorem c9_cancellation_witness :
    coordinatorRun ([PowMessage.update (List.replicate 20 0) 160] ++
        PowMessage.done exCommit (List.replicate 20 0) :: []) =
      (true, PowOutcome.success exCommit (List.replicate 20 0)) ∧
    (workerRun hashZero exStop 8 [] exCommit 0 5 0 0).2 ≤ 1 - 0 := by
  constructor
  · refine (c9_cancellation hashZero exStop 8 []).1 _ _ _ _ ?_
    intro cb hb
    simp
  · refine (c9_cancellation hashZero exStop 8 []).2 1 ?_ (by decide) 5 exCommit 0 0 0
      (by omega)
    intro i j hij hi
    simp only [exStop, decide_eq_true_eq] at hi ⊢
    omega

/-! ## C8: exhaustion hangs instead of failing -/

/-- With a 20-byte digest, no score can reach a target above 160, so a worker
never sends a `Done` message. -/
lemma workerRun_no_done {hashFn : List Nat → List Nat}
    (hlen : ∀ bs, (hashFn bs).length = 20) {target : Nat} (ht : 160 < target)
    (stop : Nat → Bool) (pre : List Nat) :
    ∀ (fuel : Nat) (c : CommitBuffer) (nonce k maxZ : Nat) (cb : CommitBuffer)
      (hb : List Nat),
      PowMessage.done cb hb ∉ (workerRun hashFn stop target pre c nonce fuel k maxZ).1 := by
  intro fuel
  induction fuel with
  | zero =>
    intro c nonce k maxZ cb hb
    simp [workerRun]
  | succ f ih =>
    intro c nonce k maxZ cb hb
    by_cases hstop : stop k = true
    · simp [workerRun, hstop]
    · rw [Bool.not_eq_true] at hstop
      have hz : numLeadingZeroBits (hashFn (sha1Update pre
          ((writeNonce c nonce).buf.drop (writeNonce c nonce).nonce_start))) ≤ 160 := by
        have h1 := nlzb_le (hashFn (sha1Update pre
          ((writeNonce c nonce).buf.drop (writeNonce c nonce).nonce_start)))
        rw [hlen] at h1
        omega
      have htz : ¬ (target ≤ numLeadingZeroBits (hashFn (sha1Update pre
          ((writeNonce c nonce).buf.drop (writeNonce c nonce).nonce_start)))) := by omega
      simp only [workerRun, hstop, Bool.false_eq_true, if_false, htz]
      rw [List.mem_append]
      rintro (hmem | hmem)
      · split_ifs at hmem <;> simp at hmem
      · exact ih _ _ _ _ cb hb hmem

/-- A coordinator that never receives a `Done` message blocks forever and
never sets the stop flag. -/
lemma coordinatorRun_hang {ms : List PowMessage}
    (h : ∀ cb hb, PowMessage.done cb hb ∉ ms) :
    coordinatorRun ms = (false, PowOutcome.hang) := by
  induction ms with
  | nil => rfl
  | cons m rest ih =>
    cases m with
    | update d z =>
      simp only [coordinatorRun]
      exact ih fun cb hb hmem => h cb hb (by simp [hmem])
    | done cb hb => exact absurd (by simp) (h cb hb)

/-- **C8 counterexample**: a session whose single worker exhausts its whole
range (fuel 5, constant digest `FF…FF`, target 200) sends no message at all,
and the coordinator outcome is `hang` — `run_pow` blocks forever in
`rx.recv()` (its own sender keeps the channel open); it does not return a
`SearchSpaceExhausted` error, and no such error exists in the code. -/
theorem c8_exhaustion_cex :
    (workerRun (fun _ => List.replicate 20 255) (fun _ => false) 200 []
        exCommit 0 5 0 0).1 = [] ∧
    (coordinatorRun (workerRun (fun _ => List.replicate 20 255) (fun _ => false) 200 []
        exCommit 0 5 0 0).1).2 = PowOutcome.hang := by
  constructor
  · decide
  · decide

/-- **C8 amended**: if every message on the channel comes from worker runs
and the target exceeds 160 bits (so no 20-byte digest can ever qualify and
every worker exhausts its range without a result), the coordinator loop never
receives a terminal message and blocks forever on `rx.recv()` — outcome
`hang` with the stop flag never set — instead of returning an error. -/
theorem c8_exhaustion_hangs (hashFn : List Nat → List Nat)
    (hlen : ∀ bs, (hashFn bs).length = 20) (target : Nat) (ht : 160 < target)
    (ms : List PowMessage)
    (hms : ∀ m ∈ ms, ∃ stop pre c nonce fuel k maxZ,
      m ∈ (workerRun hashFn stop target pre c nonce fuel k maxZ).1) :
    coordinatorRun ms = (false, PowOutcome.hang) := by
  apply coordinatorRun_hang
  intro cb hb hmem
  obtain ⟨stop, pre, c, nonce, fuel, k, maxZ, hin⟩ := hms _ hmem
  exact workerRun_no_done hlen ht stop pre fuel c nonce k maxZ cb hb hin

/-- Witness for **C8 amended** on a concrete three-iteration worker run. -/
theorem c8_exhaustion_hangs_witness :
    coordinatorRun (workerRun (fun _ => List.replicate 20 255) (fun _ => false) 200 []
        exCommit 0 3 0 0).1 = (false, PowOutcome.hang) := by
  refine c8_exhaustion_hangs (fun _ => List.replicate 20 255) (fun _ => rfl) 200
    (by norm_num) _ ?_
  intro m hm
  exact ⟨fun _ => false, [], exCommit, 0, 3, 0, 0, hm⟩

/-! ## Index-level helpers for occurrence reasoning -/

lemma occ_getD {s pat : List Nat} {j : Nat} (h : listStartsWith (s.drop j) pat = true)
    (t : Nat) (ht : t < pat.length) : s.getD (j + t) 0 = pat.getD t 0 := by
  have := lsw_getD h t ht
  rw [getD_drop] at this
  exact this

lemma occ_length {s pat : List Nat} {j : Nat}
    (h : listStartsWith (s.drop j) pat = true) (hp : pat ≠ []) :
    j + pat.length ≤ s.length := by
  have h1 := lsw_length h
  have h5 : 1 ≤ pat.length := List.length_pos.mpr hp
  rw [List.length_drop] at h1
  omega

lemma occ_intro {s pat : List Nat} {j : Nat} (hlen : j + pat.length ≤ s.length)
    (hch : ∀ t < pat.length, s.getD (j + t) 0 = pat.getD t 0) :
    listStartsWith (s.drop j) pat = true := by
  apply lsw_intro
  · rw [List.length_drop]
    omega
  · intro k hk
    rw [getD_drop]
    exact hch k hk

lemma findSub_none_intro {s pat : List Nat}
    (h : ∀ j, listStartsWith (s.drop j) pat = false) :
    findSub s pat = none := by
  cases hf : findSub s pat with
  | none => rfl
  | some i => exact absurd (findSub_some hf).1 (by simp [h i])

lemma getD_take (b : List Nat) (he p : Nat) (h : p < he) :
    (b.take he).getD p 0 = b.getD p 0 := by
  induction b generalizing he p with
  | nil => simp
  | cons a t ih =>
    cases he with
    | zero => omega
    | succ he' =>
      cases p with
      | zero => simp
      | succ p' => simpa using ih he' p' (by omega)

lemma splice_length (b M : List Nat) (he : Nat) (hhe : he ≤ b.length) :
    (b.take he ++ M ++ b.drop he).length = b.length + M.length := by
  simp only [List.length_append, List.length_take, List.length_drop]
  omega

/-- Byte `p` of the spliced buffer `b.take he ++ M ++ b.drop he`. -/
lemma splice_getD (b M : List Nat) (he : Nat) (hhe : he ≤ b.length) (p : Nat) :
    (b.take he ++ M ++ b.drop he).getD p 0 =
      if p < he then b.getD p 0
      else if p < he + M.length then M.getD (p - he) 0
      else b.getD (p - M.length) 0 := by
  have hT : (b.take he).length = he := by
    rw [List.length_take]
    omega
  by_cases h1 : p < he
  · rw [List.append_assoc, List.getD_append _ _ _ _ (by omega), if_pos h1]
    exact getD_take b he p h1
  · rw [List.append_assoc, List.getD_append_right _ _ _ _ (by omega), hT, if_neg h1]
    by_cases h2 : p < he + M.length
    · rw [List.getD_append _ _ _ _ (by omega), if_pos h2]
    · rw [List.getD_append_right _ _ _ _ (by omega), if_neg h2, getD_drop]
      congr 1
      omega

/-- The full nonce field inserted into an unsigned commit:
`"\nnonce " ++ "A"*32`, 39 bytes. -/
def nonceField : List Nat := strBytes "\nnonce " ++ nonceInit

/-- The full nonce armor header inserted into a signed commit:
`"\nNonce: " ++ "A"*32`, 40 bytes. -/
def nonceHeaderField : List Nat := strBytes "\nNonce: " ++ nonceInit

/-! ## C7: nonce placement inside a signature armor block -/

/-- **C7 amended**: for a commit buffer whose first armor begin-marker is at
`p`, with no `"Nonce"` occurrence at or after `p` (so the header is freshly
inserted), whose first armor continuation line starts at relative offset `q`,
and whose end-marker sits at relative offset `e` with `q < e`: parsing
succeeds; the logical record equals the input with exactly the 40 bytes
`"\nNonce: " ++ "A"*32` spliced in at `p + q` — so every byte outside that
in-block insertion point is byte-for-byte unchanged; the insertion point is
strictly inside the block (`29 ≤ q < e`); the 32-byte nonce window spans
`[p+q+8, p+q+40)` of the record; and the armor end-marker still occurs at
`p + 40 + e`, after the window. -/
theorem c7_signed_parse_amended (b : List Nat) (p q e : Nat)
    (hpgp : findSub b pgpMarker = some p)
    (hnon : findSub (b.drop p) (strBytes "Nonce") = none)
    (hsp : findSub (b.drop p) (strBytes "\n ") = some q)
    (hend : findSub (b.drop p) pgpEndMarker = some e)
    (hqe : q < e) :
    ∃ c, commitNew b = some c ∧
      dataOf c = b.take (p + q) ++ strBytes "\nNonce: " ++ nonceInit ++ b.drop (p + q) ∧
      29 ≤ q ∧
      c.nonce_start = p + q + 8 + c.header_len ∧
      c.nonce_end = p + q + 40 + c.header_len ∧
      listStartsWith ((dataOf c).drop (p + 40 + e)) pgpEndMarker = true := by
  have hmlen : pgpMarker.length = 29 := by decide
  have h1 := findSub_some_le hpgp (by decide)
  rw [hmlen] at h1
  have hsplen : q + 2 ≤ b.length - p := by
    have h2 := findSub_some_le hsp (by decide)
    have h2' : (strBytes "\n ").length = 2 := by decide
    rw [h2', List.length_drop] at h2
    exact h2
  have hpq2 : p + q + 2 ≤ b.length := by omega
  have hq10 : b.getD (p + q) 0 = 10 := by
    have h3 := occ_getD (findSub_some hsp).1 0 (by decide)
    rw [getD_drop] at h3
    have h4 : (strBytes "\n ").getD 0 0 = 10 := by decide
    rw [h4] at h3
    simpa using h3
  have hq29 : 29 ≤ q := by
    by_contra hcon
    push_neg at hcon
    have h5 := lsw_getD (findSub_some hpgp).1 q (by omega)
    have h6 : (b.drop p).getD q 0 = 10 := by
      rw [getD_drop]
      exact hq10
    have h7 : ∀ o < 29, pgpMarker.getD o 0 ≠ 10 := by decide
    rw [h6] at h5
    exact h7 q hcon h5.symm
  have hloc : locateNonce b =
      some (insertStr b (p + q) (strBytes "\nNonce: "), p + q + 8) := by
    simp only [locateNonce, hpgp, hnon, hsp]
  have hTH : (b.take (p + q) ++ strBytes "\nNonce: ").length = p + q + 8 := by
    have h8 : (strBytes "\nNonce: ").length = 8 := by decide
    simp only [List.length_append, List.length_take, h8]
    omega
  have hins : insertStr b (p + q) (strBytes "\nNonce: ") =
      (b.take (p + q) ++ strBytes "\nNonce: ") ++ b.drop (p + q) := by
    simp [insertStr, List.append_assoc]
  have hdrop8 : (insertStr b (p + q) (strBytes "\nNonce: ")).drop (p + q + 8) =
      b.drop (p + q) := by
    rw [hins, List.drop_left' hTH]
  have htake8 : (insertStr b (p + q) (strBytes "\nNonce: ")).take (p + q + 8) =
      b.take (p + q) ++ strBytes "\nNonce: " := by
    rw [hins, List.take_left' hTH]
  have hNL : findSub ((insertStr b (p + q) (strBytes "\nNonce: ")).drop (p + q + 8))
      (strBytes "\n") = some 0 := by
    rw [hdrop8]
    apply findSub_intro
    · rw [List.drop_zero]
      apply lsw_intro
      · have h9 : (strBytes "\n").length = 1 := by decide
        rw [h9, List.length_drop]
        omega
      · intro k hk
        have h9 : (strBytes "\n").length = 1 := by decide
        have hk0 : k = 0 := by omega
        subst hk0
        rw [getD_drop]
        have h10 : (strBytes "\n").getD 0 0 = 10 := by decide
        rw [h10]
        simpa using hq10
    · intro j hj
      exact absurd hj (Nat.not_lt_zero j)
  have hfin := finishCommit_eqRepl (insertStr b (p + q) (strBytes "\nNonce: "))
    (p + q + 8) 0 (by decide) hNL
  have hcn : commitNew b =
      some ⟨commitHeader (replaceRange (insertStr b (p + q) (strBytes "\nNonce: "))
              (p + q + 8) (p + q + 8 + 0) nonceInit) ++
            replaceRange (insertStr b (p + q) (strBytes "\nNonce: "))
              (p + q + 8) (p + q + 8 + 0) nonceInit,
            (commitHeader (replaceRange (insertStr b (p + q) (strBytes "\nNonce: "))
              (p + q + 8) (p + q + 8 + 0) nonceInit)).length,
            p + q + 8 + (commitHeader (replaceRange (insertStr b (p + q)
              (strBytes "\nNonce: ")) (p + q + 8) (p + q + 8 + 0) nonceInit)).length,
            p + q + 8 + 32 + (commitHeader (replaceRange (insertStr b (p + q)
              (strBytes "\nNonce: ")) (p + q + 8) (p + q + 8 + 0) nonceInit)).length⟩ := by
    unfold commitNew
    rw [hloc]
    exact hfin
  have hbuf2 : replaceRange (insertStr b (p + q) (strBytes "\nNonce: "))
      (p + q + 8) (p + q + 8 + 0) nonceInit =
      b.take (p + q) ++ strBytes "\nNonce: " ++ nonceInit ++ b.drop (p + q) := by
    have hz : p + q + 8 + 0 = p + q + 8 := by omega
    rw [replaceRange, hz, htake8, hdrop8]
  rw [hbuf2] at hcn
  have hdata : dataOf (⟨commitHeader (b.take (p + q) ++ strBytes "\nNonce: " ++
      nonceInit ++ b.drop (p + q)) ++ (b.take (p + q) ++ strBytes "\nNonce: " ++
      nonceInit ++ b.drop (p + q)),
      (commitHeader (b.take (p + q) ++ strBytes "\nNonce: " ++ nonceInit ++
        b.drop (p + q))).length,
      p + q + 8 + (commitHeader (b.take (p + q) ++ strBytes "\nNonce: " ++
        nonceInit ++ b.drop (p + q))).length,
      p + q + 8 + 32 + (commitHeader (b.take (p + q) ++ strBytes "\nNonce: " ++
        nonceInit ++ b.drop (p + q))).length⟩ : CommitBuffer) =
      b.take (p + q) ++ strBytes "\nNonce: " ++ nonceInit ++ b.drop (p + q) := by
    show (commitHeader _ ++ _).drop (commitHeader _).length = _
    exact List.drop_left _ _
  refine ⟨_, hcn, hdata, hq29, rfl, ?_, ?_⟩
  · show p + q + 8 + 32 + (commitHeader (b.take (p + q) ++ strBytes "\nNonce: " ++
        nonceInit ++ b.drop (p + q))).length = p + q + 40 + (commitHeader (b.take (p + q) ++
        strBytes "\nNonce: " ++ nonceInit ++ b.drop (p + q))).length
    omega
  · rw [hdata]
    have hsplice : b.take (p + q) ++ strBytes "\nNonce: " ++ nonceInit ++ b.drop (p + q) =
        b.take (p + q) ++ (strBytes "\nNonce: " ++ nonceInit) ++ b.drop (p + q) := by
      simp [List.append_assoc]
    rw [hsplice]
    have hMlen : (strBytes "\nNonce: " ++ nonceInit).length = 40 := by decide
    have hendlen : e + 27 ≤ b.length - p := by
      have h11 := findSub_some_le hend (by decide)
      have h11l : pgpEndMarker.length = 27 := by decide
      rw [h11l, List.length_drop] at h11
      exact h11
    apply occ_intro
    · have h12 : pgpEndMarker.length = 27 := by decide
      rw [h12, splice_length b _ (p + q) (by omega), hMlen]
      omega
    · intro t ht
      have h12 : pgpEndMarker.length = 27 := by decide
      rw [h12] at ht
      rw [splice_getD b _ (p + q) (by omega) (p + 40 + e + t), hMlen]
      rw [if_neg (by omega), if_neg (by omega)]
      have h13 := occ_getD (findSub_some hend).1 t (by omega)
      rw [getD_drop] at h13
      have h14 : p + 40 + e + t - 40 = p + (e + t) := by omega
      rw [h14]
      exact h13

/-- Signed-commit example for the C7 witness. -/
def c7WitBuf : List Nat :=
  strBytes "sig -----BEGIN PGP SIGNATURE-----\n abc\n -----END PGP SIGNATURE-----\n\nmsg\n"

/-- Witness for **C7 amended** at `p = 4`, `q = 29`, `e = 36`. -/
theorem c7_signed_parse_amended_witness :
    ∃ c, commitNew c7WitBuf = some c ∧
      dataOf c = c7WitBuf.take (4 + 29) ++ strBytes "\nNonce: " ++ nonceInit ++
        c7WitBuf.drop (4 + 29) ∧
      29 ≤ 29 ∧
      c.nonce_start = 4 + 29 + 8 + c.header_len ∧
      c.nonce_end = 4 + 29 + 40 + c.header_len ∧
      listStartsWith ((dataOf c).drop (4 + 40 + 36)) pgpEndMarker = true :=
  c7_signed_parse_amended c7WitBuf 4 29 36 (by decide) (by decide) (by decide)
    (by decide) (by decide)

/-- Buffer with an armor block whose commit message mentions `"Nonce"`. -/
def c7CexBuf : List Nat :=
  strBytes "sig -----BEGIN PGP SIGNATURE-----\n a\n -----END PGP SIGNATURE-----\n\nNonce talk\n"

/-- **C7 counterexample**: `c7CexBuf` embeds an armor block (begin-marker at
4, end-marker at 38, so the block ends at byte 65), but because
`buf[pgp_idx..].find("Nonce")` also scans the text after the block, the parse
puts the 32-byte nonce window at record offset 74 — outside the armor block —
and rewrites message bytes: the record's last five bytes no longer equal the
input's last five bytes, so bytes outside the block are not byte-for-byte
unchanged. -/
theorem c7_signed_parse_cex :
    findSub c7CexBuf pgpMarker = some 4 ∧
    findSub c7CexBuf pgpEndMarker = some 38 ∧
    (commitNew c7CexBuf).map (fun c => c.nonce_start - c.header_len) = some 74 ∧
    (commitNew c7CexBuf).map (fun c => (dataOf c).drop ((dataOf c).length - 5)) ≠
      some (c7CexBuf.drop (c7CexBuf.length - 5)) := by
  refine ⟨by decide, by decide, by decide, by decide⟩

/-! ## C6: nonce trailer insertion in unsigned commits -/

/-- First parse of an unsigned buffer with no pre-existing `"nonce"`: the
39-byte field `"\nnonce " ++ "A"*32` is spliced in at the separator. -/
lemma c6_parse_eq (b : List Nat) (he : Nat)
    (hpgp : findSub b pgpMarker = none)
    (hsep : findSub b dblNewline = some he)
    (hnon : findSub b (strBytes "nonce") = none) :
    commitNew b = some ⟨commitHeader (b.take he ++ nonceField ++ b.drop he) ++
        (b.take he ++ nonceField ++ b.drop he),
      (commitHeader (b.take he ++ nonceField ++ b.drop he)).length,
      he + 7 + (commitHeader (b.take he ++ nonceField ++ b.drop he)).length,
      he + 7 + 32 + (commitHeader (b.take he ++ nonceField ++ b.drop he)).length⟩ := by
  have hdl : dblNewline.length = 2 := by decide
  have hhe2 : he + 2 ≤ b.length := by
    have := findSub_some_le hsep (by decide)
    rw [hdl] at this
    exact this
  have hb10 : b.getD he 0 = 10 := by
    have h3 := lsw_getD (findSub_some hsep).1 0 (by decide)
    rw [getD_drop] at h3
    have h4 : dblNewline.getD 0 0 = 10 := by decide
    rw [h4] at h3
    simpa using h3
  have hloc : locateNonce b = some (insertStr b he (strBytes "\nnonce "), he + 7) := by
    simp only [locateNonce, hpgp, hsep, hnon]
  have hTH : (b.take he ++ strBytes "\nnonce ").length = he + 7 := by
    have h8 : (strBytes "\nnonce ").length = 7 := by decide
    simp only [List.length_append, List.length_take, h8]
    omega
  have hins : insertStr b he (strBytes "\nnonce ") =
      (b.take he ++ strBytes "\nnonce ") ++ b.drop he := by
    simp [insertStr, List.append_assoc]
  have hdrop7 : (insertStr b he (strBytes "\nnonce ")).drop (he + 7) = b.drop he := by
    rw [hins, List.drop_left' hTH]
  have htake7 : (insertStr b he (strBytes "\nnonce ")).take (he + 7) =
      b.take he ++ strBytes "\nnonce " := by
    rw [hins, List.take_left' hTH]
  have hNL : findSub ((insertStr b he (strBytes "\nnonce ")).drop (he + 7))
      (strBytes "\n") = some 0 := by
    rw [hdrop7]
    apply findSub_intro
    · rw [List.drop_zero]
      apply lsw_intro
      · have h9 : (strBytes "\n").length = 1 := by decide
        rw [h9, List.length_drop]
        omega
      · intro k hk
        have h9 : (strBytes "\n").length = 1 := by decide
        have hk0 : k = 0 := by omega
        subst hk0
        rw [getD_drop]
        have h10 : (strBytes "\n").getD 0 0 = 10 := by decide
        rw [h10]
        simpa using hb10
    · intro j hj
      exact absurd hj (Nat.not_lt_zero j)
  have hfin := finishCommit_eqRepl (insertStr b he (strBytes "\nnonce "))
    (he + 7) 0 (by decide) hNL
  have hcn : commitNew b =
      some ⟨commitHeader (replaceRange (insertStr b he (strBytes "\nnonce "))
              (he + 7) (he + 7 + 0) nonceInit) ++
            replaceRange (insertStr b he (strBytes "\nnonce "))
              (he + 7) (he + 7 + 0) nonceInit,
            (commitHeader (replaceRange (insertStr b he (strBytes "\nnonce "))
              (he + 7) (he + 7 + 0) nonceInit)).length,
            he + 7 + (commitHeader (replaceRange (insertStr b he
              (strBytes "\nnonce ")) (he + 7) (he + 7 + 0) nonceInit)).length,
            he + 7 + 32 + (commitHeader (replaceRange (insertStr b he
              (strBytes "\nnonce ")) (he + 7) (he + 7 + 0) nonceInit)).length⟩ := by
    unfold commitNew
    rw [hloc]
    exact hfin
  have hbuf2 : replaceRange (insertStr b he (strBytes "\nnonce "))
      (he + 7) (he + 7 + 0) nonceInit = b.take he ++ nonceField ++ b.drop he := by
    have hz : he + 7 + 0 = he + 7 := by omega
    rw [replaceRange, hz, htake7, hdrop7]
    simp [nonceField, List.append_assoc]
  rw [hbuf2] at hcn
  exact hcn

/-- The re-parsed record contains no armor begin-marker: an occurrence would
either map back into `b` (excluded) or overlap the inserted field, which
contains no `'-'` byte at any position a `'-'` of the marker would align
with. -/
lemma c6_second_pgp (b : List Nat) (he : Nat)
    (hpgp : findSub b pgpMarker = none)
    (hsep : findSub b dblNewline = some he) :
    findSub (b.take he ++ nonceField ++ b.drop he) pgpMarker = none := by
  have hdl : dblNewline.length = 2 := by decide
  have hhe2 : he + 2 ≤ b.length := by
    have := findSub_some_le hsep (by decide)
    rw [hdl] at this
    exact this
  have hhe : he ≤ b.length := by omega
  have hNF : nonceField.length = 39 := by decide
  have hml : pgpMarker.length = 29 := by decide
  apply findSub_none_intro
  intro j
  rw [Bool.eq_false_iff]
  intro hcon
  have hlen := occ_length hcon (by decide)
  rw [hml, splice_length b _ he hhe, hNF] at hlen
  have hch : ∀ t, t < 29 →
      (b.take he ++ nonceField ++ b.drop he).getD (j + t) 0 = pgpMarker.getD t 0 := by
    intro t ht
    exact occ_getD hcon t (by rw [hml]; exact ht)
  by_cases hj1 : j + 29 ≤ he
  · have hocc : listStartsWith (b.drop j) pgpMarker = true := by
      apply occ_intro
      · rw [hml]
        omega
      · intro t ht
        rw [hml] at ht
        have h1 := hch t ht
        rw [splice_getD b _ he hhe (j + t), if_pos (by omega)] at h1
        exact h1
    rw [findSub_none hpgp j] at hocc
    simp at hocc
  · by_cases hj2 : he + 39 ≤ j
    · have hocc : listStartsWith (b.drop (j - 39)) pgpMarker = true := by
        apply occ_intro
        · rw [hml]
          omega
        · intro t ht
          rw [hml] at ht
          have h1 := hch t ht
          rw [splice_getD b _ he hhe (j + t), if_neg (by omega), hNF,
            if_neg (by omega)] at h1
          rw [show j - 39 + t = j + t - 39 from by omega]
          exact h1
      rw [findSub_none hpgp (j - 39)] at hocc
      simp at hocc
    · push_neg at hj1 hj2
      have hM45 : ∀ o < 39, nonceField.getD o 0 ≠ 45 := by decide
      have hP45 : ∀ t < 5, pgpMarker.getD t 0 = 45 := by decide
      have hP28 : pgpMarker.getD 28 0 = 45 := by decide
      by_cases hja : he ≤ j
      · have h1 := hch 0 (by omega)
        rw [splice_getD b _ he hhe (j + 0), if_neg (by omega), hNF,
          if_pos (by omega)] at h1
        have h2 := hM45 (j + 0 - he) (by omega)
        rw [h1] at h2
        exact h2 (hP45 0 (by omega))
      · push_neg at hja
        by_cases hjb : he - j ≤ 4
        · have h1 := hch (he - j) (by omega)
          rw [splice_getD b _ he hhe (j + (he - j)), if_neg (by omega), hNF,
            if_pos (by omega)] at h1
          have h2 := hM45 (j + (he - j) - he) (by omega)
          rw [h1] at h2
          exact h2 (hP45 (he - j) (by omega))
        · push_neg at hjb
          have h1 := hch 28 (by omega)
          rw [splice_getD b _ he hhe (j + 28), if_neg (by omega), hNF,
            if_pos (by omega)] at h1
          have h2 := hM45 (j + 28 - he) (by omega)
          rw [h1] at h2
          exact h2 hP28

/-- The first `"\n\n"` of the re-parsed record is the one right after the
inserted nonce field, at `he + 39`. -/
lemma c6_second_sep (b : List Nat) (he : Nat)
    (hsep : findSub b dblNewline = some he) :
    findSub (b.take he ++ nonceField ++ b.drop he) dblNewline = some (he + 39) := by
  have hdl : dblNewline.length = 2 := by decide
  have hhe2 : he + 2 ≤ b.length := by
    have := findSub_some_le hsep (by decide)
    rw [hdl] at this
    exact this
  have hhe : he ≤ b.length := by omega
  have hNF : nonceField.length = 39 := by decide
  have hd0 : dblNewline.getD 0 0 = 10 := by decide
  have hd1 : dblNewline.getD 1 0 = 10 := by decide
  have hb10 : b.getD he 0 = 10 := by
    have h3 := lsw_getD (findSub_some hsep).1 0 (by decide)
    rw [getD_drop, hd0] at h3
    simpa using h3
  have hb10' : b.getD (he + 1) 0 = 10 := by
    have h3 := lsw_getD (findSub_some hsep).1 1 (by decide)
    rw [getD_drop, hd1] at h3
    simpa using h3
  have hmin := (findSub_some hsep).2
  apply findSub_intro
  · apply occ_intro
    · rw [hdl, splice_length b _ he hhe, hNF]
      omega
    · intro t ht
      rw [hdl] at ht
      interval_cases t
      · rw [splice_getD b _ he hhe (he + 39 + 0), if_neg (by omega), hNF,
          if_neg (by omega), hd0]
        rw [show he + 39 + 0 - 39 = he from by omega]
        exact hb10
      · rw [splice_getD b _ he hhe (he + 39 + 1), if_neg (by omega), hNF,
          if_neg (by omega), hd1]
        rw [show he + 39 + 1 - 39 = he + 1 from by omega]
        exact hb10'
  · intro j hj
    rw [Bool.eq_false_iff]
    intro hcon
    have hc0 := occ_getD hcon 0 (by decide)
    have hc1 := occ_getD hcon 1 (by decide)
    rw [hd0] at hc0
    rw [hd1] at hc1
    by_cases h1 : j + 1 < he
    · rw [splice_getD b _ he hhe (j + 0), if_pos (by omega)] at hc0
      rw [splice_getD b _ he hhe (j + 1), if_pos (by omega)] at hc1
      have hocc : listStartsWith (b.drop j) dblNewline = true := by
        apply occ_intro
        · rw [hdl]
          omega
        · intro t ht
          rw [hdl] at ht
          interval_cases t
          · rw [hd0]
            exact hc0
          · rw [hd1]
            exact hc1
      rw [hmin j (by omega)] at hocc
      simp at hocc
    · by_cases h2 : j < he
      · have hj1 : j + 1 = he := by omega
        rw [splice_getD b _ he hhe (j + 0), if_pos (by omega)] at hc0
        have hocc : listStartsWith (b.drop j) dblNewline = true := by
          apply occ_intro
          · rw [hdl]
            omega
          · intro t ht
            rw [hdl] at ht
            interval_cases t
            · rw [hd0]
              exact hc0
            · rw [hd1, hj1]
              exact hb10
        rw [hmin j (by omega)] at hocc
        simp at hocc
      · push_neg at h2
        by_cases h3 : j + 1 < he + 39
        · rw [splice_getD b _ he hhe (j + 0), if_neg (by omega), hNF,
            if_pos (by omega)] at hc0
          rw [splice_getD b _ he hhe (j + 1), if_neg (by omega), hNF,
            if_pos (by omega)] at hc1
          have hM2 : ∀ o < 38,
              ¬(nonceField.getD o 0 = 10 ∧ nonceField.getD (o + 1) 0 = 10) := by decide
          refine hM2 (j + 0 - he) (by omega) ⟨hc0, ?_⟩
          rw [show j + 0 - he + 1 = j + 1 - he from by omega]
          exact hc1
        · rw [splice_getD b _ he hhe (j + 0), if_neg (by omega), hNF,
            if_pos (by omega)] at hc0
          have hM38 : nonceField.getD 38 0 = 65 := by decide
          rw [show j + 0 - he = 38 from by omega, hM38] at hc0
          exact absurd hc0 (by decide)

/-- The first `"nonce"` of the re-parsed record is the inserted one, at
`he + 1`. -/
lemma c6_second_nonce (b : List Nat) (he : Nat)
    (hsep : findSub b dblNewline = some he)
    (hnon : findSub b (strBytes "nonce") = none) :
    findSub (b.take he ++ nonceField ++ b.drop he) (strBytes "nonce") =
      some (he + 1) := by
  have hdl : dblNewline.length = 2 := by decide
  have hhe2 : he + 2 ≤ b.length := by
    have := findSub_some_le hsep (by decide)
    rw [hdl] at this
    exact this
  have hhe : he ≤ b.length := by omega
  have hNF : nonceField.length = 39 := by decide
  have hn5 : (strBytes "nonce").length = 5 := by decide
  apply findSub_intro
  · apply occ_intro
    · rw [hn5, splice_length b _ he hhe, hNF]
      omega
    · intro t ht
      rw [hn5] at ht
      rw [splice_getD b _ he hhe (he + 1 + t), if_neg (by omega), hNF,
        if_pos (by omega)]
      rw [show he + 1 + t - he = 1 + t from by omega]
      have hMn : ∀ t < 5, nonceField.getD (1 + t) 0 = (strBytes "nonce").getD t 0 := by
        decide
      exact hMn t ht
  · intro j hj
    rw [Bool.eq_false_iff]
    intro hcon
    by_cases h1 : j + 5 ≤ he
    · have hocc : listStartsWith (b.drop j) (strBytes "nonce") = true := by
        apply occ_intro
        · rw [hn5]
          omega
        · intro t ht
          rw [hn5] at ht
          have h2 := occ_getD hcon t (by omega)
          rw [splice_getD b _ he hhe (j + t), if_pos (by omega)] at h2
          exact h2
      rw [findSub_none hnon j] at hocc
      simp at hocc
    · have ht0 : he - j < 5 := by omega
      have hcN := occ_getD hcon (he - j) (by omega)
      rw [splice_getD b _ he hhe (j + (he - j)), if_neg (by omega), hNF,
        if_pos (by omega)] at hcN
      have hM0 : nonceField.getD 0 0 = 10 := by decide
      rw [show j + (he - j) - he = 0 from by omega, hM0] at hcN
      have h3 : ∀ t < 5, (strBytes "nonce").getD t 0 ≠ 10 := by decide
      exact h3 (he - j) ht0 hcN.symm

/-- Looking for the nonce line's end in the re-parsed record: 32 `'A'`s then
the newline at relative offset 32. -/
lemma c6_second_lineEnd (b : List Nat) (he : Nat)
    (hsep : findSub b dblNewline = some he) :
    findSub ((b.take he ++ nonceField ++ b.drop he).drop (he + 7))
      (strBytes "\n") = some 32 := by
  have hdl : dblNewline.length = 2 := by decide
  have hhe2 : he + 2 ≤ b.length := by
    have := findSub_some_le hsep (by decide)
    rw [hdl] at this
    exact this
  have hhe : he ≤ b.length := by omega
  have hNF : nonceField.length = 39 := by decide
  have h10 : (strBytes "\n").getD 0 0 = 10 := by decide
  have hn1 : (strBytes "\n").length = 1 := by decide
  have hb10 : b.getD he 0 = 10 := by
    have h3 := lsw_getD (findSub_some hsep).1 0 (by decide)
    rw [getD_drop] at h3
    have h4 : dblNewline.getD 0 0 = 10 := by decide
    rw [h4] at h3
    simpa using h3
  apply findSub_intro
  · rw [List.drop_drop]
    rw [show he + 7 + 32 = he + 39 from by omega]
    apply occ_intro
    · rw [hn1, splice_length b _ he hhe, hNF]
      omega
    · intro t ht
      rw [hn1] at ht
      have ht0 : t = 0 := by omega
      subst ht0
      rw [splice_getD b _ he hhe (he + 39 + 0), if_neg (by omega), hNF,
        if_neg (by omega), h10]
      rw [show he + 39 + 0 - 39 = he from by omega]
      exact hb10
  · intro j hj
    rw [Bool.eq_false_iff]
    intro hcon
    have hc := occ_getD hcon 0 (by omega)
    rw [getD_drop] at hc
    rw [splice_getD b _ he hhe (he + 7 + (j + 0)), if_neg (by omega), hNF,
      if_pos (by omega)] at hc
    have hMA : ∀ o < 39, 7 ≤ o → nonceField.getD o 0 = 65 := by decide
    rw [show he + 7 + (j + 0) - he = 7 + j from by omega] at hc
    rw [hMA (7 + j) (by omega) (by omega), h10] at hc
    exact absurd hc (by decide)

/-- Re-parsing the record produced by a first parse finds the existing nonce
field (window of exactly 32 bytes, so no rewrite) and rebuilds the identical
`CommitBuffer`. -/
lemma c6_reparse (b : List Nat) (he : Nat)
    (hpgp : findSub b pgpMarker = none)
    (hsep : findSub b dblNewline = some he)
    (hnon : findSub b (strBytes "nonce") = none) :
    commitNew (b.take he ++ nonceField ++ b.drop he) =
      some ⟨commitHeader (b.take he ++ nonceField ++ b.drop he) ++
          (b.take he ++ nonceField ++ b.drop he),
        (commitHeader (b.take he ++ nonceField ++ b.drop he)).length,
        he + 7 + (commitHeader (b.take he ++ nonceField ++ b.drop he)).length,
        he + 7 + 32 + (commitHeader (b.take he ++ nonceField ++ b.drop he)).length⟩ := by
  have hloc2 : locateNonce (b.take he ++ nonceField ++ b.drop he) =
      some (b.take he ++ nonceField ++ b.drop he, he + 1 + 6) := by
    simp only [locateNonce, c6_second_pgp b he hpgp hsep, c6_second_sep b he hsep,
      c6_second_nonce b he hsep hnon]
  have harith : he + 1 + 6 = he + 7 := by omega
  rw [harith] at hloc2
  have hfin2 := finishCommit_eq32 (b.take he ++ nonceField ++ b.drop he) (he + 7)
    (c6_second_lineEnd b he hsep)
  unfold commitNew
  rw [hloc2]
  exact hfin2

/-- **C6 amended**: for every unsigned commit buffer (no armor begin-marker)
that contains the metadata/message separator `"\n\n"` (first occurrence at
`he`) and — the amendment — no occurrence of the substring `"nonce"` at all,
parsing inserts exactly the 39-byte trailer `"\nnonce " ++ "A"*32` (one
32-symbol nonce trailer as a new final metadata line) immediately before the
separator and changes nothing else; and re-parsing the produced logical
record makes no further insertion or rewrite, returning the identical parse
(idempotence). -/
theorem c6_unsigned_parse_amended (b : List Nat) (he : Nat)
    (hpgp : findSub b pgpMarker = none)
    (hsep : findSub b dblNewline = some he)
    (hnon : findSub b (strBytes "nonce") = none) :
    ∃ c, commitNew b = some c ∧
      dataOf c = b.take he ++ nonceField ++ b.drop he ∧
      commitNew (dataOf c) = some c := by
  have h1 := c6_parse_eq b he hpgp hsep hnon
  have hdata : dataOf (⟨commitHeader (b.take he ++ nonceField ++ b.drop he) ++
        (b.take he ++ nonceField ++ b.drop he),
      (commitHeader (b.take he ++ nonceField ++ b.drop he)).length,
      he + 7 + (commitHeader (b.take he ++ nonceField ++ b.drop he)).length,
      he + 7 + 32 + (commitHeader (b.take he ++ nonceField ++ b.drop he)).length⟩ :
        CommitBuffer) = b.take he ++ nonceField ++ b.drop he := by
    show (commitHeader _ ++ _).drop (commitHeader _).length = _
    exact List.drop_left _ _
  refine ⟨_, h1, hdata, ?_⟩
  rw [hdata]
  exact c6_reparse b he hpgp hsep hnon

/-- Witness for **C6 amended** on `exBuf = "t\n\nm\n"`, separator at 1. -/
theorem c6_unsigned_parse_amended_witness :
    ∃ c, commitNew exBuf = some c ∧
      dataOf c = exBuf.take 1 ++ nonceField ++ exBuf.drop 1 ∧
      commitNew (dataOf c) = some c :=
  c6_unsigned_parse_amended exBuf 1 (by decide) (by decide) (by decide)

/-- An unsigned commit buffer whose message body contains the word
`"nonce"`. -/
def c6CexBuf : List Nat := strBytes "tree t\n\nnonce talk\n"

/-- **C6 counterexample**: `c6CexBuf` is a valid unsigned buffer with its
separator at byte 6, but because `buf.find("nonce")` scans the whole buffer,
parsing inserts no trailer before the separator at all: the record is not the
claimed insertion. Instead the parse treats the message's `"nonce talk"` as
an existing nonce field and rewrites the body to
`"tree t\n\nnonce " ++ "A"*32 ++ "\n"`, placing the window after the
separator. -/
theorem c6_unsigned_parse_cex :
    findSub c6CexBuf pgpMarker = none ∧
    findSub c6CexBuf dblNewline = some 6 ∧
    (commitNew c6CexBuf).map dataOf ≠
      some (c6CexBuf.take 6 ++ nonceField ++ c6CexBuf.drop 6) ∧
    (commitNew c6CexBuf).map dataOf =
      some (strBytes "tree t\n\nnonce " ++ nonceInit ++ strBytes "\n") := by
  refine ⟨by decide, by decide, by decide, by decide⟩
